import Mathlib

/-!
Verification of the documentation index / fuzzy-search engine of the
`ebx-docs-mcp` repository, by shallow embedding of its TypeScript source.

The embedding covers:
* the LRU `CacheManager` (src/cache/CacheManager.ts);
* the inventory parser `SearchIndexParser.buildClassIndex`
  (src/parser/SearchIndexParser.ts);
* the `SearchEngine` query pipeline: `searchClasses`, `searchMethods`,
  `findPackagesByTask` (src/utils/zipReader.ts, SearchEngine part);
* the detail extractor `ClassDocParser.extractMethods` / `extractParameters`
  (src/parser/ClassDocParser.ts), over a structured view of one
  method-detail DOM section;
* the coordinator `DocumentationIndexer.getClassDoc`
  (src/indexer/DocumentationIndexer.ts).

JavaScript `Map`s are modelled as association lists with the `Map`
insert/replace semantics (`jset` replaces the value in place for an existing
key and appends a fresh key at the end, which reproduces `Map` iteration
order).  The Fuse.js fuzzy matcher is an external library; query pipelines
take the raw `fuse.search(query, {limit})` result list as an explicit
function argument, so all theorems hold for every possible fuzzy-match
output.  `Date.now()` is an explicit timestamp argument.  Relevance scores
are modelled as rationals.
-/

namespace EbxDocs

/-! ## JavaScript `Map` model (association lists with Map semantics) -/

/-- `Map.get`: value of the first (and, for lists built by `jset`, only)
entry with the given key. -/
def jget {β : Type} (m : List (String × β)) (k : String) : Option β :=
  match m with
  | [] => none
  | (k', v) :: rest => if k' = k then some v else jget rest k

/-- `Map.set`: replace in place if the key is present, otherwise append
(new keys iterate last, as in a JavaScript `Map`). -/
def jset {β : Type} (m : List (String × β)) (k : String) (v : β) :
    List (String × β) :=
  match m with
  | [] => [(k, v)]
  | (k', v') :: rest =>
      if k' = k then (k, v) :: rest else (k', v') :: jset rest k v

/-- `Map.delete`: remove the entry with the given key. -/
def jdelete {β : Type} (m : List (String × β)) (k : String) :
    List (String × β) :=
  match m with
  | [] => []
  | (k', v) :: rest => if k' = k then rest else (k', v) :: jdelete rest k

/-! ## JavaScript string helpers -/

/-- Whether `pat` occurs at the very start of `s` (character lists). -/
def segAt : List Char → List Char → Bool
  | [], _ => true
  | _ :: _, [] => false
  | a :: as, b :: bs => a = b && segAt as bs

/-- Whether `pat` occurs contiguously anywhere in `s` (character lists). -/
def hasSeg (pat : List Char) : List Char → Bool
  | [] => segAt pat []
  | c :: rest => segAt pat (c :: rest) || hasSeg pat rest

/-- JavaScript `hay.includes(needle)`. -/
def jsIncludes (hay needle : String) : Bool :=
  hasSeg needle.data hay.data

/-- ASCII lower-casing of one character (JS `toLowerCase` restricted to
the ASCII identifiers this corpus contains). -/
def lowerChar (c : Char) : Char :=
  if 'A' ≤ c ∧ c ≤ 'Z' then Char.ofNat (c.toNat + 32) else c

/-- JavaScript `s.toLowerCase()`. -/
def jsToLower (s : String) : String :=
  ⟨s.data.map lowerChar⟩

/-- JavaScript `s.trim()`: strip leading and trailing whitespace. -/
def jsTrim (s : String) : String :=
  ⟨(((s.data.dropWhile Char.isWhitespace).reverse).dropWhile
      Char.isWhitespace).reverse⟩

/-- JavaScript `s.substring(0, n)` (and `String.prototype.slice(0, n)`). -/
def jsTake (n : Nat) (s : String) : String :=
  ⟨s.data.take n⟩

/-- JavaScript `s.split(sep)` for a single-character separator: splits at
every occurrence, keeping empty parts. -/
def splitOnChar (c : Char) : List Char → List (List Char)
  | [] => [[]]
  | a :: rest =>
    let r := splitOnChar c rest
    if a = c then [] :: r
    else
      match r with
      | [] => [[a]]
      | g :: gs => (a :: g) :: gs

/-- JavaScript `s.split(c)`. -/
def jsSplit (s : String) (c : Char) : List String :=
  (splitOnChar c s.data).map (fun g => ⟨g⟩)

/-- Case-insensitive containment, `hay.toLowerCase().includes(needle.toLowerCase())`. -/
def lcIncludes (hay needle : String) : Bool :=
  jsIncludes (jsToLower hay) (jsToLower needle)

/-- JavaScript `s.endsWith(suffix)`. -/
def jsEndsWith (s suf : String) : Bool :=
  segAt suf.data.reverse s.data.reverse

/-- JavaScript `x || d` for an optional number treated as a count:
`undefined` and `0` are falsy, any other value is kept. -/
def jsOrNat (o : Option Nat) (d : Nat) : Nat :=
  match o with
  | some n => if n = 0 then d else n
  | none => d

/-- The JS idiom `xs.filter((x, i, self) => self.indexOf(x) === i)`:
keep the first occurrence of each element, preserving encounter order. -/
def keepFirsts : List String → List String
  | [] => []
  | x :: xs => x :: (keepFirsts xs).filter (fun y => y ≠ x)

/-- `package.replace(/\./g, '/')`. -/
def dotsToSlashes (s : String) : String :=
  ⟨s.data.map (fun c => if c = '.' then '/' else c)⟩

/-- Index of the last occurrence of `c` (JS `lastIndexOf`, `none` for -1). -/
def lastIdxOf (c : Char) : List Char → Option Nat
  | [] => none
  | a :: as =>
    match lastIdxOf c as with
    | some i => some (i + 1)
    | none => if a = c then some 0 else none

/-- First match group of the regex `\((.*?)\)`: the shortest run of
non-newline characters enclosed by a `(` and a subsequent `)`; the regex
metacharacter `.` does not cross line breaks, so a `(` whose line has no
closing `)` is skipped and later positions are tried. -/
def scanParen : List Char → Option (List Char)
  | [] => none
  | c :: rest =>
    if c = '(' then
      let inner := rest.takeWhile (fun d => d ≠ ')' ∧ d ≠ '\n')
      match rest.drop inner.length with
      | ')' :: _ => some inner
      | _ => scanParen rest
    else scanParen rest

/-! ## Data model (src/indexer/types.ts) -/

/-- The `type` string union of `ClassDocumentation`; `class` is a Lean
keyword and `annotation` trips a lint, so those two constructors are
spelled `cls` and `annot`. -/
inductive ClassType where
  | interface
  | cls
  | enum
  | exception
  | annot
deriving DecidableEq, Repr

/-- Method parameter (`ParameterDoc`). -/
structure ParameterDoc where
  name : Option String
  type : String
deriving DecidableEq, Repr

/-- Method documentation (`MethodDoc`); optional TypeScript fields are
`Option`s. -/
structure MethodDoc where
  name : String
  signature : String
  returnType : Option String
  parameters : List ParameterDoc
  description : Option String
  modifiers : Option (List String)
  deprecated : Option Bool
  className : String
  packageName : String
deriving DecidableEq, Repr

/-- Field documentation (`FieldDoc`). -/
structure FieldDoc where
  name : String
  type : String
  description : Option String
  modifiers : Option (List String)
  deprecated : Option Bool
deriving DecidableEq, Repr

/-- Class documentation (`ClassDocumentation`); the `extends` /
`implements` fields are renamed because `extends` is a Lean keyword. -/
structure ClassDocumentation where
  fullyQualifiedName : String
  simpleName : String
  package : String
  type : ClassType
  description : Option String
  extendsClasses : Option (List String)
  implementsInterfaces : Option (List String)
  methods : List MethodDoc
  fields : List FieldDoc
  deprecated : Bool
  seeAlso : List String
  htmlPath : String
deriving DecidableEq, Repr

/-- Package documentation (`PackageDocumentation`). -/
structure PackageDocumentation where
  name : String
  description : Option String
  classes : List String
  relatedPackages : List String
deriving DecidableEq, Repr

/-- Entry of the per-name method collection (`MethodSearchEntry`). -/
structure MethodSearchEntry where
  method : String
  signature : String
  className : String
  packageName : String
  returnType : Option String
  description : Option String
deriving DecidableEq, Repr

/-- Raw record of `type-search-index.js` (`TypeSearchEntry`); a record
without a package is modelled by `p = ""` (both are falsy in JS). -/
structure TypeSearchEntry where
  p : String
  l : String
  u : Option String
deriving DecidableEq, Repr

/-- One scored item of a `fuse.search(query, {limit})` result list.
`score` is optional as in Fuse.js (`result.score || 0` is used by callers). -/
structure FuseResult (α : Type) where
  item : α
  score : Option ℚ
deriving DecidableEq, Repr

/-- `ClassSearchResult` (src/utils/zipReader.ts, SearchEngine part). -/
structure ClassSearchResult where
  name : String
  fullyQualifiedName : String
  type : ClassType
  package : String
  description : Option String
  keyMethods : List String
  relevanceScore : ℚ
deriving DecidableEq, Repr

/-- `MethodSearchResult`. -/
structure MethodSearchResult where
  method : String
  signature : String
  className : String
  packageName : String
  returnType : Option String
  description : Option String
  relevanceScore : ℚ
deriving DecidableEq, Repr

/-- `PackageSearchResult`. -/
structure PackageSearchResult where
  name : String
  description : Option String
  keyClasses : List String
  relevanceScore : ℚ
deriving DecidableEq, Repr

/-- The `type` option of `searchClasses`: one of the five kinds or the
literal `'all'`. -/
inductive TypeOption where
  | all
  | only (t : ClassType)
deriving DecidableEq, Repr

/-! ## Bounded detail cache (src/cache/CacheManager.ts, `CacheManager<T>`) -/

/-- `CacheEntry<T>`: cached value plus its `Date.now()` timestamp (stored,
never read back). -/
structure CacheEntry (T : Type) where
  value : T
  timestamp : Nat
deriving DecidableEq, Repr

/-- The LRU cache state: the backing `Map`, the capacity, and the access
order list (front = least recently used). -/
structure CacheManager (T : Type) where
  cache : List (String × CacheEntry T)
  maxSize : Nat
  accessOrder : List String
deriving DecidableEq, Repr

/-- `updateAccessOrder`: remove the key if present (`indexOf` + `splice`)
and push it to the end (most recently used). -/
def CacheManager.updateAccessOrder {T : Type} (c : CacheManager T)
    (key : String) : CacheManager T :=
  { c with accessOrder := c.accessOrder.erase key ++ [key] }

/-- `get`: on a hit, refresh recency and return the value; on a miss,
leave the state untouched. -/
def CacheManager.get {T : Type} (c : CacheManager T) (key : String) :
    Option T × CacheManager T :=
  match jget c.cache key with
  | some entry => (some entry.value, c.updateAccessOrder key)
  | none => (none, c)

/-- `has`. -/
def CacheManager.has {T : Type} (c : CacheManager T) (key : String) : Bool :=
  (jget c.cache key).isSome

/-- `evictLRU`: shift the front of the access order; the source guards the
`Map` delete with `if (lruKey)`, which is falsy for the empty string, so an
empty-string LRU key is removed from the access order but NOT deleted from
the map. -/
def CacheManager.evictLRU {T : Type} (c : CacheManager T) : CacheManager T :=
  match c.accessOrder with
  | [] => c
  | lruKey :: rest =>
      if lruKey = "" then { c with accessOrder := rest }
      else { c with accessOrder := rest, cache := jdelete c.cache lruKey }

/-- `set`: evict first when at capacity (`cache.size >= maxSize`) and the
key is new, then store `{value, timestamp}` and refresh recency. -/
def CacheManager.set {T : Type} (c : CacheManager T) (key : String)
    (value : T) (ts : Nat) : CacheManager T :=
  let c1 := if c.maxSize ≤ c.cache.length ∧ c.has key = false
            then c.evictLRU else c
  let c2 := { c1 with cache := jset c1.cache key ⟨value, ts⟩ }
  c2.updateAccessOrder key

/-- `clear`. -/
def CacheManager.clear {T : Type} (c : CacheManager T) : CacheManager T :=
  { c with cache := [], accessOrder := [] }

/-- One cache operation of an externally observable call sequence
(`has` reads without mutating; `set` carries the `Date.now()` value). -/
inductive CacheOp (T : Type) where
  | get (k : String)
  | set (k : String) (v : T) (ts : Nat)
  | has (k : String)
  | clear
deriving DecidableEq, Repr

/-- State transition of one cache operation. -/
def applyOp {T : Type} (c : CacheManager T) : CacheOp T → CacheManager T
  | .get k => (c.get k).2
  | .set k v ts => c.set k v ts
  | .has _ => c
  | .clear => c.clear

/-- Run a sequence of cache operations. -/
def runOps {T : Type} (c : CacheManager T) (ops : List (CacheOp T)) :
    CacheManager T :=
  ops.foldl applyOp c

/-- Whether an operation's `set` key is a non-empty string (other
operations are unrestricted). -/
def opKeyOk {T : Type} : CacheOp T → Bool
  | .set k _ _ => k ≠ ""
  | _ => true

/-- Fill the cache with a list of `(key, value, timestamp)` inserts. -/
def setAll {T : Type} (c : CacheManager T) (xs : List (String × T × Nat)) :
    CacheManager T :=
  xs.foldl (fun c x => c.set x.1 x.2.1 x.2.2) c

/-- The scenario of the detail-cache claim: starting from an empty cache
whose capacity equals the number of inserts, perform all inserts, `get` the
`touched` key, then `set` one fresh key. -/
def lruScenario (T : Type) (inserts : List (String × T × Nat))
    (touched kNew : String) (vNew : T) (tsNew : Nat) : CacheManager T :=
  ((setAll (⟨[], inserts.length, []⟩ : CacheManager T) inserts).get
    touched).2.set kNew vNew tsNew

/-- The invariant of a well-formed cache state: within capacity, no
duplicate keys or access-order entries, the access order holds exactly the
cached keys, and no cached key is the empty string. -/
def CacheManager.goodState {T : Type} (c : CacheManager T) : Prop :=
  c.cache.length ≤ c.maxSize
  ∧ (c.cache.map Prod.fst).Nodup
  ∧ c.accessOrder.Nodup
  ∧ (∀ k, k ∈ c.accessOrder ↔ k ∈ c.cache.map Prod.fst)
  ∧ (∀ k ∈ c.cache.map Prod.fst, k ≠ "")

/-! ## Inventory parser (src/parser/SearchIndexParser.ts, `buildClassIndex`) -/

/-- The skeleton `ClassDocumentation` built for one inventory record:
fully-qualified name `p + "." + l`, HTML path from the package path, kind
`exception` when the simple name ends in `Exception`/`Error`, else
`class`. -/
def classDocOfEntry (e : TypeSearchEntry) : ClassDocumentation :=
  { fullyQualifiedName := e.p ++ "." ++ e.l
  , simpleName := e.l
  , package := e.p
  , type := if jsEndsWith e.l "Exception" || jsEndsWith e.l "Error"
            then ClassType.exception else ClassType.cls
  , description := none
  , extendsClasses := none
  , implementsInterfaces := none
  , methods := []
  , fields := []
  , deprecated := false
  , seeAlso := []
  , htmlPath := dotsToSlashes e.p ++ "/" ++ e.l ++ ".html" }

/-- `buildClassIndex`: for each entry with a package, index the skeleton
document under both its fully-qualified name and its simple name. -/
def buildClassIndex (types : List TypeSearchEntry) :
    List (String × ClassDocumentation) :=
  types.foldl
    (fun m e =>
      if e.p = "" then m
      else jset (jset m (e.p ++ "." ++ e.l) (classDocOfEntry e))
             e.l (classDocOfEntry e))
    []

/-- The two map writes one entry performs (none for a packageless entry). -/
def writesOfEntry (e : TypeSearchEntry) : List (String × ClassDocumentation) :=
  if e.p = "" then []
  else [(e.p ++ "." ++ e.l, classDocOfEntry e), (e.l, classDocOfEntry e)]

/-- All writes of `buildClassIndex`, in execution order. -/
def allWrites (types : List TypeSearchEntry) :
    List (String × ClassDocumentation) :=
  (types.map writesOfEntry).flatten

/-- Apply a list of writes to a map with `Map.set`. -/
def jsetFold {β : Type} (m : List (String × β)) (ws : List (String × β)) :
    List (String × β) :=
  ws.foldl (fun acc w => jset acc w.1 w.2) m

/-! ## Search engine (src/utils/zipReader.ts, `SearchEngine`) -/

/-- Post-initialization state of the `SearchEngine`: the four collections
its constructor builds from the serialized index. -/
structure SearchEngine where
  classMap : List (String × ClassDocumentation)
  methodMap : List (String × List MethodSearchEntry)
  packageMap : List (String × PackageDocumentation)
  categoriesByTask : List (String × List String)
deriving DecidableEq, Repr

/-- `getClass`: exact lookup by fully-qualified or simple name. -/
def SearchEngine.getClass (eng : SearchEngine) (className : String) :
    Option ClassDocumentation :=
  jget eng.classMap className

/-- `if (options.type && options.type !== 'all')` filter of `searchClasses`. -/
def applyTypeOpt (ot : Option TypeOption)
    (rs : List (FuseResult ClassDocumentation)) :
    List (FuseResult ClassDocumentation) :=
  match ot with
  | some (TypeOption.only t) => rs.filter (fun r => r.item.type == t)
  | _ => rs

/-- `if (options.package)` filter of `searchClasses` (empty string is
falsy, so it disables the filter). -/
def applyPackageOpt (op : Option String)
    (rs : List (FuseResult ClassDocumentation)) :
    List (FuseResult ClassDocumentation) :=
  match op with
  | some p => if p = "" then rs else rs.filter (fun r => r.item.package == p)
  | none => rs

/-- Conversion of one scored class hit to a `ClassSearchResult`
(truncated description, up to five deduplicated method names,
score `1 - (result.score || 0)`). -/
def toClassSearchResult (r : FuseResult ClassDocumentation) :
    ClassSearchResult :=
  { name := r.item.simpleName
  , fullyQualifiedName := r.item.fullyQualifiedName
  , type := r.item.type
  , package := r.item.package
  , description := r.item.description.map (fun d => jsTake 200 d)
  , keyMethods := keepFirsts ((r.item.methods.take 5).map (fun m => m.name))
  , relevanceScore := 1 - r.score.getD 0 }

/-- `searchClasses`: over-fetch `limit * 3` fuzzy candidates, apply the
kind and package post-filters, truncate to the limit, convert.  `fuse`
stands for `this.classFuse.search`. -/
def searchClasses (fuse : String → Nat → List (FuseResult ClassDocumentation))
    (query : String) (otype : Option TypeOption) (opkg : Option String)
    (olimit : Option Nat) : List ClassSearchResult :=
  let limit := jsOrNat olimit 10
  ((applyPackageOpt opkg (applyTypeOpt otype (fuse query (limit * 3)))).take
      limit).map toClassSearchResult

/-- `if (options.className)` filter of `searchMethods` (case-insensitive
containment on the owning class name). -/
def applyClassNameOpt (oc : Option String)
    (rs : List (FuseResult MethodSearchEntry)) :
    List (FuseResult MethodSearchEntry) :=
  match oc with
  | some cn =>
      if cn = "" then rs
      else rs.filter (fun r => lcIncludes r.item.className cn)
  | none => rs

/-- `if (options.returnType)` filter of `searchMethods`: an entry with an
absent return type never passes (`r.item.returnType?.toLowerCase()` is
`undefined`, which is falsy). -/
def applyReturnTypeOpt (ort : Option String)
    (rs : List (FuseResult MethodSearchEntry)) :
    List (FuseResult MethodSearchEntry) :=
  match ort with
  | some rt =>
      if rt = "" then rs
      else rs.filter (fun r =>
        match r.item.returnType with
        | some t => lcIncludes t rt
        | none => false)
  | none => rs

/-- Conversion of one scored method hit to a `MethodSearchResult`. -/
def toMethodSearchResult (r : FuseResult MethodSearchEntry) :
    MethodSearchResult :=
  { method := r.item.method
  , signature := r.item.signature
  , className := r.item.className
  , packageName := r.item.packageName
  , returnType := r.item.returnType
  , description := r.item.description.map (fun d => jsTake 200 d)
  , relevanceScore := 1 - r.score.getD 0 }

/-- `searchMethods`: over-fetch `limit * 3` fuzzy candidates, apply the
class-name and return-type post-filters, truncate, convert.  `fuse` stands
for `this.methodFuse.search`. -/
def searchMethods (fuse : String → Nat → List (FuseResult MethodSearchEntry))
    (methodName : String) (oclass ort : Option String)
    (olimit : Option Nat) : List MethodSearchResult :=
  let limit := jsOrNat olimit 10
  ((applyReturnTypeOpt ort
      (applyClassNameOpt oclass (fuse methodName (limit * 3)))).take
      limit).map toMethodSearchResult

/-- The concatenated entity lists of every task category whose label
matches the query (case-insensitive bidirectional containment), in map
iteration order; entries are pushed with multiplicity, exactly as the
`relevantClasses.push(...classes)` loop does. -/
def relevantClassesFor (eng : SearchEngine) (task : String) : List String :=
  ((eng.categoriesByTask.filter (fun p =>
      jsIncludes (jsToLower p.1) (jsToLower task)
        || jsIncludes (jsToLower task) (jsToLower p.1))).map (fun p => p.2)).flatten

/-- The deduplicated owning packages of the candidate classes (`Set`
insertion order; classes missing from the class map are skipped). -/
def candidatePackagesFor (eng : SearchEngine) (task : String) : List String :=
  keepFirsts ((relevantClassesFor eng task).filterMap
    (fun cn => (jget eng.classMap cn).map (fun d => d.package)))

/-- Build one package result: key classes are the package members that are
candidates (capped at 5); the score divides by the candidate list length
(with multiplicity), floored at 1. -/
def packageResultFor (eng : SearchEngine) (rel : List String)
    (pn : String) : Option PackageSearchResult :=
  (jget eng.packageMap pn).map (fun pkg =>
    let keyClasses := (pkg.classes.filter (fun c => rel.contains c)).take 5
    { name := pkg.name
    , description := pkg.description
    , keyClasses := keyClasses
    , relevanceScore :=
        (keyClasses.length : ℚ) / ((max rel.length 1 : Nat) : ℚ) })

/-- Stable descending insertion by relevance score (models the JS
`sort((a, b) => b.relevanceScore - a.relevanceScore)`). -/
def insertByScore (r : PackageSearchResult) :
    List PackageSearchResult → List PackageSearchResult
  | [] => [r]
  | x :: xs =>
      if r.relevanceScore ≤ x.relevanceScore then x :: insertByScore r xs
      else r :: x :: xs

/-- Sort package results descending by relevance score. -/
def sortByScoreDesc (l : List PackageSearchResult) :
    List PackageSearchResult :=
  l.foldr insertByScore []

/-- Descending-by-score sortedness. -/
def SortedByScore (l : List PackageSearchResult) : Prop :=
  List.Sorted (fun a b => b.relevanceScore ≤ a.relevanceScore) l

/-- `findPackagesByTask`: collect candidate classes of matching categories,
map them to packages, build one scored result per package, sort descending
by score. -/
def findPackagesByTask (eng : SearchEngine) (task : String) :
    List PackageSearchResult :=
  sortByScoreDesc
    ((candidatePackagesFor eng task).filterMap
      (packageResultFor eng (relevantClassesFor eng task)))

/-! ## Detail extractor (src/parser/ClassDocParser.ts) -/

/-- Structured view of one `.method-details .detail` DOM section, carrying
exactly the texts the extractor reads: the first `h3` heading, the
`.member-signature` text, the `.return-type` portion of the signature, the
HTML of the first `.block` (absent when the section has none), and whether
a `.deprecation-block` is present. -/
structure MethodSection where
  heading : String
  memberSignature : String
  returnTypeText : String
  blockHtml : Option String
  hasDeprecationBlock : Bool
deriving DecidableEq, Repr

/-- `extractParameters`: match `\((.*?)\)` against the raw signature text,
split the group on commas, trim each part, and split each non-empty part on
its last space into type and name (no space, or a space at position 0 ⇒
type-only). -/
def extractParameters (signature : String) : List ParameterDoc :=
  match scanParen signature.data with
  | none => []
  | some group =>
    let paramsList : String := ⟨group⟩
    if jsTrim paramsList = "" then []
    else
      ((jsSplit paramsList ',').map jsTrim).foldr
        (fun part acc =>
          if part = "" then acc
          else
            match lastIdxOf ' ' part.data with
            | some i =>
                if 0 < i then
                  { name := some (jsTrim ⟨part.data.drop (i + 1)⟩)
                  , type := jsTrim ⟨part.data.take i⟩ } :: acc
                else { name := none, type := part } :: acc
            | none => { name := none, type := part } :: acc)
        []

/-- Body of the `extractMethods` loop for one method-detail section:
sections with an empty trimmed heading are skipped; the stored return type
is `returnType || 'void'`, i.e. `"void"` whenever the extracted portion is
empty; modifiers are substring tests on the trimmed signature, in the
source's fixed order; `td` stands for the Turndown HTML-to-markdown
converter. -/
def methodOfSection (td : String → String) (className packageName : String)
    (sec : MethodSection) : Option MethodDoc :=
  let methodName := jsTrim sec.heading
  if methodName = "" then none
  else
    let signature := jsTrim sec.memberSignature
    let returnType := jsTrim sec.returnTypeText
    let parameters := extractParameters sec.memberSignature
    let description :=
      match sec.blockHtml with
      | some h => jsTrim (td h)
      | none => ""
    let modifiers :=
      (["public", "private", "protected", "static", "final", "abstract",
        "default"]).filter (fun kw => jsIncludes signature kw)
    some
      { name := methodName
      , signature := signature
      , returnType := some (if returnType = "" then "void" else returnType)
      , parameters := parameters
      , description := some description
      , modifiers := some modifiers
      , deprecated := some sec.hasDeprecationBlock
      , className := className
      , packageName := packageName }

/-- `extractMethods`: process every method-detail section in document
order. -/
def extractMethods (td : String → String) (className packageName : String)
    (sections : List MethodSection) : List MethodDoc :=
  sections.filterMap (methodOfSection td className packageName)

/-! ## Index coordinator (src/indexer/DocumentationIndexer.ts) -/

/-- Outcome of a full-detail request: `notFound` models the `null` return
for an unknown name, `readError` models a thrown file-read error for a
missing/unreadable detail document. -/
inductive DocResult where
  | notFound
  | ok (doc : ClassDocumentation)
  | readError
deriving DecidableEq, Repr

/-- `ClassDocParser.parseClassDoc`: serve from the cache on a hit (the hit
refreshes recency); otherwise read the document (`readDoc` models
`fs.readFile` under the javadoc root, `none` = throw), extract
(`extract fqn htmlPath html` models `extractClassInfo`), store in the
cache, and return. -/
def parseClassDoc (extract : String → String → String → ClassDocumentation)
    (readDoc : String → Option String) (fullyQualifiedName htmlPath : String)
    (cache : CacheManager ClassDocumentation) (ts : Nat) :
    DocResult × CacheManager ClassDocumentation :=
  match cache.get fullyQualifiedName with
  | (some cached, cache') => (DocResult.ok cached, cache')
  | (none, cache') =>
    match readDoc htmlPath with
    | none => (DocResult.readError, cache')
    | some html =>
      let doc := extract fullyQualifiedName htmlPath html
      (DocResult.ok doc, cache'.set fullyQualifiedName doc ts)

/-- `DocumentationIndexer.getClassDoc`: resolve the name through the class
map; unknown names return `notFound` without touching the parser or the
cache; `includeInherited` is accepted but never read (the merge is a
`TODO` in the source). -/
def getClassDoc (eng : SearchEngine)
    (extract : String → String → String → ClassDocumentation)
    (readDoc : String → Option String)
    (cache : CacheManager ClassDocumentation) (ts : Nat)
    (className : String) (_includeInherited : Bool) :
    DocResult × CacheManager ClassDocumentation :=
  match eng.getClass className with
  | none => (DocResult.notFound, cache)
  | some classInfo =>
      parseClassDoc extract readDoc classInfo.fullyQualifiedName
        classInfo.htmlPath cache ts

/-! ## Concrete instances used by scenarios, witnesses and counterexamples -/

/-- A minimal class document in package `com.x`. -/
def docCheckerX : ClassDocumentation :=
  { fullyQualifiedName := "com.x.Checker"
  , simpleName := "Checker"
  , package := "com.x"
  , type := ClassType.cls
  , description := none
  , extendsClasses := none
  , implementsInterfaces := none
  , methods := []
  , fields := []
  , deprecated := false
  , seeAlso := []
  , htmlPath := "com/x/Checker.html" }

/-- Engine of the spec's task-discovery scenario: one category
`"validation" ↦ ["com.x.Checker"]`, with that class in package `com.x`. -/
def engScenario : SearchEngine :=
  { classMap := [("com.x.Checker", docCheckerX)]
  , methodMap := []
  , packageMap :=
      [("com.x",
        { name := "com.x", description := none
        , classes := ["com.x.Checker"], relatedPackages := [] })]
  , categoriesByTask := [("validation", ["com.x.Checker"])] }

/-- A second class document, in package `com.x` as well. -/
def docAX : ClassDocumentation :=
  { docCheckerX with
      fullyQualifiedName := "com.x.A", simpleName := "A"
    , htmlPath := "com/x/A.html" }

/-- Engine with two overlapping categories (`"validation"` and `"valid"`)
that both list `com.x.A`; a query matching both duplicates the candidate. -/
def engOverlap : SearchEngine :=
  { classMap := [("com.x.A", docAX)]
  , methodMap := []
  , packageMap :=
      [("com.x",
        { name := "com.x", description := none
        , classes := ["com.x.A"], relatedPackages := [] })]
  , categoriesByTask :=
      [("validation", ["com.x.A"]), ("valid", ["com.x.A"])] }

/-- A method-detail section whose tagged return-type portion is empty. -/
def secEmptyReturn : MethodSection :=
  { heading := "doIt"
  , memberSignature := "public void doIt()"
  , returnTypeText := ""
  , blockHtml := none
  , hasDeprecationBlock := false }

/-- A documented class used by search-pipeline witnesses. -/
def docWidget : ClassDocumentation :=
  { fullyQualifiedName := "com.x.y.Widget"
  , simpleName := "Widget"
  , package := "com.x.y"
  , type := ClassType.cls
  , description := some "Renders widgets"
  , extendsClasses := none
  , implementsInterfaces := none
  , methods := []
  , fields := []
  , deprecated := false
  , seeAlso := []
  , htmlPath := "com/x/y/Widget.html" }

/-- A fuzzy matcher stub returning nine copies of `docWidget`. -/
def fuseManyClasses : String → Nat → List (FuseResult ClassDocumentation) :=
  fun _ _ => List.replicate 9 { item := docWidget, score := none }

/-- A fuzzy matcher stub returning exactly one `docWidget` hit. -/
def fuseOneClass : String → Nat → List (FuseResult ClassDocumentation) :=
  fun _ _ => [{ item := docWidget, score := none }]

/-- A method entry with return type `String`. -/
def entryRender : MethodSearchEntry :=
  { method := "render"
  , signature := "render(Path) : String"
  , className := "com.x.y.Widget"
  , packageName := "com.x.y"
  , returnType := some "String"
  , description := none }

/-- A fuzzy matcher stub returning exactly one `entryRender` hit. -/
def fuseOneMethod : String → Nat → List (FuseResult MethodSearchEntry) :=
  fun _ _ => [{ item := entryRender, score := none }]

/-- An empty search engine. -/
def engEmpty : SearchEngine :=
  { classMap := [], methodMap := [], packageMap := [], categoriesByTask := [] }

/-- An empty detail cache of the default capacity 50. -/
def cacheDefault : CacheManager ClassDocumentation := ⟨[], 50, []⟩

/-- A constant extractor stub. -/
def extractStub : String → String → String → ClassDocumentation :=
  fun _ _ _ => docWidget

/-- A reader stub for which every document is missing. -/
def readNone : String → Option String := fun _ => none

/-- The `MethodDoc` stored for `secEmptyReturn`. -/
def mVoid : MethodDoc :=
  { name := "doIt"
  , signature := "public void doIt()"
  , returnType := some "void"
  , parameters := []
  , description := some ""
  , modifiers := some ["public"]
  , deprecated := some false
  , className := "com.x.C"
  , packageName := "com.x" }

/-! # Lemmas about the `Map` model -/

theorem jget_jset_self {β : Type} (m : List (String × β)) (k : String)
    (v : β) : jget (jset m k v) k = some v := by
  induction m with
  | nil => simp [jget, jset]
  | cons p rest ih =>
    obtain ⟨k', v'⟩ := p
    by_cases h : k' = k
    · simp [jget, jset, h]
    · simp [jget, jset, h, ih]

theorem jget_jset_of_ne {β : Type} (m : List (String × β)) (k k' : String)
    (v : β) (h : k ≠ k') : jget (jset m k v) k' = jget m k' := by
  induction m with
  | nil => simp [jget, jset, h]
  | cons p rest ih =>
    obtain ⟨k₀, v₀⟩ := p
    by_cases h0 : k₀ = k
    · subst h0
      simp [jget, jset, h]
    · simp only [jset, if_neg h0]
      by_cases h1 : k₀ = k'
      · simp [jget, h1]
      · simp [jget, h1, ih]

theorem jget_isSome_iff {β : Type} (m : List (String × β)) (k : String) :
    (jget m k).isSome = true ↔ k ∈ m.map Prod.fst := by
  induction m with
  | nil => simp [jget]
  | cons p rest ih =>
    obtain ⟨k', v'⟩ := p
    by_cases h : k' = k
    · simp [jget, h]
    · simpa [jget, h, Ne.symm h] using ih

theorem jget_eq_none_iff {β : Type} (m : List (String × β)) (k : String) :
    jget m k = none ↔ k ∉ m.map Prod.fst := by
  rw [← jget_isSome_iff]
  cases h : jget m k <;> simp [h]

theorem jset_of_not_mem {β : Type} (m : List (String × β)) (k : String)
    (v : β) (h : jget m k = none) : jset m k v = m ++ [(k, v)] := by
  induction m with
  | nil => simp [jset]
  | cons p rest ih =>
    obtain ⟨k', v'⟩ := p
    by_cases h0 : k' = k
    · simp [jget, h0] at h
    · simp only [jget, if_neg h0] at h
      simp [jset, h0, ih h]

theorem map_fst_jset_of_mem {β : Type} (m : List (String × β)) (k : String)
    (v : β) (h : (jget m k).isSome = true) :
    (jset m k v).map Prod.fst = m.map Prod.fst := by
  induction m with
  | nil => simp [jget] at h
  | cons p rest ih =>
    obtain ⟨k', v'⟩ := p
    by_cases h0 : k' = k
    · simp [jset, h0]
    · simp only [jget, if_neg h0] at h
      simp [jset, h0, ih h]

theorem map_fst_jdelete {β : Type} (m : List (String × β)) (k : String) :
    (jdelete m k).map Prod.fst = (m.map Prod.fst).erase k := by
  induction m with
  | nil => simp [jdelete]
  | cons p rest ih =>
    obtain ⟨k', v'⟩ := p
    by_cases h0 : k' = k
    · simp [jdelete, h0, List.erase_cons]
    · simp [jdelete, h0, List.erase_cons, ih]

theorem jget_mem {β : Type} (m : List (String × β)) (k : String) (v : β)
    (h : jget m k = some v) : (k, v) ∈ m := by
  induction m with
  | nil => simp [jget] at h
  | cons p rest ih =>
    obtain ⟨k', v'⟩ := p
    by_cases h0 : k' = k
    · subst h0
      simp [jget] at h
      simp [h]
    · simp only [jget, if_neg h0] at h
      exact List.mem_cons_of_mem _ (ih h)

/-! # Lemmas about the cache -/

theorem has_iff_mem {T : Type} (c : CacheManager T) (k : String) :
    c.has k = true ↔ k ∈ c.cache.map Prod.fst := by
  rw [CacheManager.has]
  exact jget_isSome_iff _ _

theorem has_eq_false_iff {T : Type} (c : CacheManager T) (k : String) :
    c.has k = false ↔ k ∉ c.cache.map Prod.fst := by
  rw [← has_iff_mem]
  cases c.has k <;> simp

theorem updateAccessOrder_cache {T : Type} (c : CacheManager T)
    (k : String) : (c.updateAccessOrder k).cache = c.cache := rfl

theorem updateAccessOrder_maxSize {T : Type} (c : CacheManager T)
    (k : String) : (c.updateAccessOrder k).maxSize = c.maxSize := rfl

theorem updateAccessOrder_accessOrder {T : Type} (c : CacheManager T)
    (k : String) :
    (c.updateAccessOrder k).accessOrder = c.accessOrder.erase k ++ [k] := rfl

theorem nodup_erase_append (l : List String) (k : String) (h : l.Nodup) :
    (l.erase k ++ [k]).Nodup := by
  refine List.Nodup.append (h.erase k) (List.nodup_singleton k) ?_
  intro a ha hb
  rw [List.mem_singleton] at hb
  subst hb
  exact ((List.Nodup.mem_erase_iff h).mp ha).1 rfl

theorem mem_erase_append (l : List String) (k m : String) (h : l.Nodup) :
    m ∈ l.erase k ++ [k] ↔ m = k ∨ m ∈ l := by
  rw [List.mem_append, List.mem_singleton, List.Nodup.mem_erase_iff h]
  by_cases hm : m = k <;> simp [hm]

theorem get_hit_state {T : Type} (c : CacheManager T) (k : String)
    (hmem : (jget c.cache k).isSome = true) :
    (c.get k).2 = c.updateAccessOrder k := by
  obtain ⟨e, he⟩ := Option.isSome_iff_exists.mp hmem
  simp [CacheManager.get, he]

theorem get_miss_state {T : Type} (c : CacheManager T) (k : String)
    (h : jget c.cache k = none) : (c.get k).2 = c := by
  simp [CacheManager.get, h]

theorem evictLRU_eq {T : Type} (c : CacheManager T) (a : String)
    (restAO : List String) (h : c.accessOrder = a :: restAO) (ha : a ≠ "") :
    c.evictLRU
      = { c with accessOrder := restAO, cache := jdelete c.cache a } := by
  obtain ⟨cc, cm, co⟩ := c
  simp only at h
  subst h
  simp [CacheManager.evictLRU, ha]

/-- Setting an already-present key: no eviction, keys unchanged, recency
refreshed. -/
theorem set_replace_step {T : Type} (c : CacheManager T) (k : String)
    (v : T) (ts : Nat) (hmem : c.has k = true) :
    (c.set k v ts).cache.map Prod.fst = c.cache.map Prod.fst
    ∧ (c.set k v ts).accessOrder = c.accessOrder.erase k ++ [k]
    ∧ (c.set k v ts).maxSize = c.maxSize := by
  have hcond : ¬(c.maxSize ≤ c.cache.length ∧ c.has k = false) := by
    rintro ⟨_, h⟩
    rw [hmem] at h
    cases h
  simp only [CacheManager.set, if_neg hcond]
  refine ⟨?_, rfl, rfl⟩
  exact map_fst_jset_of_mem _ _ _ hmem

/-- Setting a fresh key with spare capacity: no eviction, the key is
appended. -/
theorem set_fresh_step {T : Type} (c : CacheManager T) (k : String)
    (v : T) (ts : Nat) (hnew : c.has k = false)
    (hroom : c.cache.length < c.maxSize) :
    (c.set k v ts).cache.map Prod.fst = c.cache.map Prod.fst ++ [k]
    ∧ (c.set k v ts).accessOrder = c.accessOrder.erase k ++ [k]
    ∧ (c.set k v ts).maxSize = c.maxSize := by
  have hget : jget c.cache k = none := by
    cases hj : jget c.cache k with
    | none => rfl
    | some e => rw [CacheManager.has, hj] at hnew; cases hnew
  have hcond : ¬(c.maxSize ≤ c.cache.length ∧ c.has k = false) := by
    rintro ⟨h, _⟩
    omega
  simp only [CacheManager.set, if_neg hcond]
  rw [jset_of_not_mem _ _ _ hget]
  exact ⟨by simp [CacheManager.updateAccessOrder], rfl, rfl⟩

/-- Setting a fresh key at capacity when the current LRU key is a
non-empty string: the LRU key is evicted, the new key appended. -/
theorem set_evict_step {T : Type} (c : CacheManager T) (k a : String)
    (restAO : List String) (v : T) (ts : Nat)
    (hAO : c.accessOrder = a :: restAO) (ha : a ≠ "")
    (hfull : c.maxSize ≤ c.cache.length) (hnew : c.has k = false) :
    (c.set k v ts).cache.map Prod.fst
      = (c.cache.map Prod.fst).erase a ++ [k]
    ∧ (c.set k v ts).accessOrder = restAO.erase k ++ [k]
    ∧ (c.set k v ts).maxSize = c.maxSize := by
  have hcond : c.maxSize ≤ c.cache.length ∧ c.has k = false := ⟨hfull, hnew⟩
  have hev := evictLRU_eq c a restAO hAO ha
  have hknot : jget (jdelete c.cache a) k = none := by
    rw [jget_eq_none_iff, map_fst_jdelete]
    intro hmemk
    have h1 : k ∈ c.cache.map Prod.fst := List.mem_of_mem_erase hmemk
    rw [← has_iff_mem] at h1
    rw [hnew] at h1
    cases h1
  simp only [CacheManager.set, if_pos hcond, hev]
  rw [jset_of_not_mem _ _ _ hknot]
  exact ⟨by simp [CacheManager.updateAccessOrder, map_fst_jdelete], rfl, rfl⟩

/-- Filling a cache whose keys and access order agree with distinct fresh
non-colliding keys, without reaching capacity mid-fill. -/
theorem setAll_fresh {T : Type} (xs : List (String × T × Nat)) :
    ∀ (c : CacheManager T) (L : List String),
      c.cache.map Prod.fst = L → c.accessOrder = L →
      (L ++ xs.map (fun x => x.1)).Nodup →
      L.length + xs.length ≤ c.maxSize →
      (setAll c xs).cache.map Prod.fst = L ++ xs.map (fun x => x.1)
      ∧ (setAll c xs).accessOrder = L ++ xs.map (fun x => x.1)
      ∧ (setAll c xs).maxSize = c.maxSize := by
  induction xs with
  | nil =>
    intro c L h1 h2 _ _
    refine ⟨by simpa [setAll] using h1, by simpa [setAll] using h2, rfl⟩
  | cons x xs ih =>
    intro c L h1 h2 hnd hlen
    have hdisj := List.disjoint_of_nodup_append hnd
    have hk : x.1 ∉ L := fun hmem =>
      hdisj hmem (List.mem_cons_self _ _)
    have hnew : c.has x.1 = false := by
      rw [has_eq_false_iff, h1]
      exact hk
    have hclen : c.cache.length = L.length := by
      rw [← h1, List.length_map]
    have hroom : c.cache.length < c.maxSize := by
      simp only [List.length_cons] at hlen
      omega
    obtain ⟨hc1, hc2, hc3⟩ := set_fresh_step c x.1 x.2.1 x.2.2 hnew hroom
    have hsetAll : setAll c (x :: xs) = setAll (c.set x.1 x.2.1 x.2.2) xs := rfl
    have hAO' : (c.set x.1 x.2.1 x.2.2).accessOrder = L ++ [x.1] := by
      rw [hc2, h2, List.erase_of_not_mem hk]
    have hkeys' : (c.set x.1 x.2.1 x.2.2).cache.map Prod.fst = L ++ [x.1] := by
      rw [hc1, h1]
    have hnd' : ((L ++ [x.1]) ++ xs.map (fun x => x.1)).Nodup := by
      rw [List.append_assoc]
      simpa using hnd
    have hlen' : (L ++ [x.1]).length + xs.length
        ≤ (c.set x.1 x.2.1 x.2.2).maxSize := by
      rw [hc3]
      simp only [List.length_append, List.length_singleton]
      simp only [List.length_cons] at hlen
      omega
    obtain ⟨hr1, hr2, hr3⟩ := ih (c.set x.1 x.2.1 x.2.2) (L ++ [x.1])
      hkeys' hAO' hnd' hlen'
    rw [hsetAll]
    refine ⟨?_, ?_, by rw [hr3, hc3]⟩
    · rw [hr1, List.append_assoc]
      simp
    · rw [hr2, List.append_assoc]
      simp

/-! # Theorems for the claims -/

/-- C5: for every query, every kind/package filter combination and every
limit option, `searchClasses` returns at most the effective limit
(`options.limit || 10`) many results, for every possible fuzzy-candidate
list; in particular at most `L` results for any requested positive limit
`L`, and at most 10 by default. -/
theorem searchClasses_limit
    (fuse : String → Nat → List (FuseResult ClassDocumentation))
    (query : String) (otype : Option TypeOption) (opkg : Option String)
    (olimit : Option Nat) :
    (searchClasses fuse query otype opkg olimit).length ≤ jsOrNat olimit 10
    ∧ (∀ L, olimit = some L → 1 ≤ L →
        (searchClasses fuse query otype opkg olimit).length ≤ L) := by
  have hlen : (searchClasses fuse query otype opkg olimit).length
      ≤ jsOrNat olimit 10 := by
    simp only [searchClasses, List.length_map, List.length_take]
    exact Nat.min_le_left _ _
  refine ⟨hlen, ?_⟩
  intro L hL h1
  subst hL
  have hL0 : L ≠ 0 := by omega
  simpa [jsOrNat, hL0] using hlen

theorem searchClasses_limit_witness :
    (searchClasses fuseManyClasses "widget" none none (some 2)).length ≤ 2 :=
  (searchClasses_limit fuseManyClasses "widget" none none (some 2)).2 2
    rfl (by decide)

/-- C6: with a non-empty package filter, every result of `searchClasses`
has exactly the filter value as its package, for every query, kind filter,
limit and fuzzy-candidate list. -/
theorem searchClasses_package_filter
    (fuse : String → Nat → List (FuseResult ClassDocumentation))
    (query : String) (otype : Option TypeOption) (olimit : Option Nat)
    (p : String) (hp : p ≠ "") :
    ∀ r ∈ searchClasses fuse query otype (some p) olimit, r.package = p := by
  intro r hr
  simp only [searchClasses, List.mem_map] at hr
  obtain ⟨fr, hfr, rfl⟩ := hr
  have h2 := List.mem_of_mem_take hfr
  simp only [applyPackageOpt, if_neg hp] at h2
  have h3 := (List.mem_filter.mp h2).2
  have h4 : fr.item.package = p := by simpa using h3
  simpa [toClassSearchResult] using h4

theorem searchClasses_package_filter_witness :
    (toClassSearchResult { item := docWidget, score := none }).package
      = "com.x.y" :=
  searchClasses_package_filter fuseOneClass "Widget" none none "com.x.y"
    (by decide) _ (List.mem_singleton_self _)

/-- C7: with a non-empty return-type filter, `searchMethods` never returns
an entry whose return type is absent, and every returned entry's return
type contains the filter case-insensitively, for every query, class-name
filter, limit and fuzzy-candidate list. -/
theorem searchMethods_returnType_filter
    (fuse : String → Nat → List (FuseResult MethodSearchEntry))
    (methodName : String) (oclass : Option String) (olimit : Option Nat)
    (rt : String) (hrt : rt ≠ "") :
    ∀ r ∈ searchMethods fuse methodName oclass (some rt) olimit,
      r.returnType.isSome = true
      ∧ lcIncludes (r.returnType.getD "") rt = true := by
  intro r hr
  simp only [searchMethods, List.mem_map] at hr
  obtain ⟨fr, hfr, rfl⟩ := hr
  have h2 := List.mem_of_mem_take hfr
  simp only [applyReturnTypeOpt, if_neg hrt] at h2
  have h3 := (List.mem_filter.mp h2).2
  cases ht : fr.item.returnType with
  | none => rw [ht] at h3; simp at h3
  | some t =>
    rw [ht] at h3
    constructor
    · simp [toMethodSearchResult, ht]
    · simpa [toMethodSearchResult, ht] using h3

theorem searchMethods_returnType_filter_witness :
    (toMethodSearchResult { item := entryRender, score := none
      }).returnType.isSome = true
    ∧ lcIncludes ((toMethodSearchResult { item := entryRender, score := none
        }).returnType.getD "") "str" = true :=
  searchMethods_returnType_filter fuseOneMethod "render" none none "str"
    (by decide) _ (List.mem_singleton_self _)

/-- C8: a full-detail request for a name absent from the class index
returns the not-found result (it does not throw a read error) and leaves
the detail cache completely unchanged. -/
theorem getClassDoc_notFound (eng : SearchEngine)
    (extract : String → String → String → ClassDocumentation)
    (readDoc : String → Option String)
    (cache : CacheManager ClassDocumentation) (ts : Nat)
    (className : String) (inh : Bool)
    (h : eng.getClass className = none) :
    getClassDoc eng extract readDoc cache ts className inh
      = (DocResult.notFound, cache) := by
  simp [getClassDoc, h]

theorem getClassDoc_notFound_witness :
    getClassDoc engEmpty extractStub readNone cacheDefault 0 "Missing" true
      = (DocResult.notFound, cacheDefault) :=
  getClassDoc_notFound engEmpty extractStub readNone cacheDefault 0
    "Missing" true rfl

/-- C9: the full-detail operation produces an identical result and an
identical cache state whether `includeInherited` is passed as `true` or
`false`, for every engine, extractor, reader, cache state and name — the
flag is accepted but never read. -/
theorem getClassDoc_includeInherited_noop (eng : SearchEngine)
    (extract : String → String → String → ClassDocumentation)
    (readDoc : String → Option String)
    (cache : CacheManager ClassDocumentation) (ts : Nat)
    (className : String) :
    getClassDoc eng extract readDoc cache ts className true
      = getClassDoc eng extract readDoc cache ts className false := rfl

/-- C2 counterexample: a method-detail section whose extracted return-type
portion is empty is stored with `returnType = "void"`, not with an
empty/absent return type — `extractMethods` applies the `"void"` default at
storage time (`returnType: returnType || 'void'`). -/
theorem extractMethods_void_at_storage_cex :
    (extractMethods (fun s => s) "com.x.C" "com.x" [secEmptyReturn]).map
        (fun m => m.returnType) = [some "void"]
    ∧ (some "void" : Option String) ≠ none
    ∧ (some "void" : Option String) ≠ some "" := by
  refine ⟨rfl, by decide, by decide⟩

/-- C2 amended: for every method-detail section that is stored at all (its
trimmed heading is non-empty), the stored return type is `"void"` when the
extracted return-type portion is empty, and the trimmed extracted portion
otherwise — the `"void"` default is applied at storage time, not deferred
to render time. -/
theorem methodOfSection_returnType_storage (td : String → String)
    (className packageName : String) (sec : MethodSection) (m : MethodDoc)
    (h : methodOfSection td className packageName sec = some m) :
    (jsTrim sec.returnTypeText = "" → m.returnType = some "void")
    ∧ (jsTrim sec.returnTypeText ≠ ""
        → m.returnType = some (jsTrim sec.returnTypeText)) := by
  by_cases hh : jsTrim sec.heading = ""
  · simp [methodOfSection, hh] at h
  · simp only [methodOfSection, if_neg hh, Option.some.injEq] at h
    constructor
    · intro he
      rw [← h]
      simp [he]
    · intro he
      rw [← h]
      simp [he]

theorem methodOfSection_returnType_witness :
    mVoid.returnType = some "void" :=
  (methodOfSection_returnType_storage (fun s => s) "com.x.C" "com.x"
    secEmptyReturn mVoid rfl).1 rfl

/-- C1 counterexample: with capacity 2 and the distinct keys `"a"`, `""`,
touching `"a"` and then setting the fresh key `"c"` should evict the
least-recently-used key `""`; instead the falsy `if (lruKey)` guard in
`evictLRU` skips the `Map` delete, the "evicted" key is still retrievable,
and the cache now holds 3 > 2 entries. -/
theorem cache_lru_empty_key_cex :
    (lruScenario Nat [("a", 1, 0), ("", 2, 1)] "a" "c" 3 4).has "" = true
    ∧ (lruScenario Nat [("a", 1, 0), ("", 2, 1)] "a" "c" 3 4).cache.length
        = 3 := by
  exact ⟨rfl, rfl⟩

/-- C1 (amended): for every list of pairwise-distinct NON-EMPTY keys
filling an empty cache of exactly that capacity, after a `get` of the
oldest key and a `set` of a fresh key, the second-oldest key (the
least-recently-used one after the touch) is the evicted one: it differs
from the touched key and is absent, while the touched key, every other
inserted key, and the new key are all retrievable.  (The non-emptiness
restriction is forced by the `if (lruKey)` guard of `evictLRU`; empty keys
are excluded by the validation boundary anyway.) -/
theorem cache_lru_evicts_second (T : Type) (k₁ k₂ kN : String)
    (e₁ e₂ : T × Nat) (rest : List (String × T × Nat)) (vN : T) (tsN : Nat)
    (hnd : (k₁ :: k₂ :: rest.map (fun x => x.1)).Nodup)
    (hne : ∀ k ∈ k₁ :: k₂ :: rest.map (fun x => x.1), k ≠ "")
    (hkN : kN ∉ k₁ :: k₂ :: rest.map (fun x => x.1)) :
    k₂ ≠ k₁
    ∧ (lruScenario T ((k₁, e₁) :: (k₂, e₂) :: rest) k₁ kN vN tsN).has k₂
        = false
    ∧ (∀ k ∈ k₁ :: k₂ :: rest.map (fun x => x.1), k ≠ k₂ →
        (lruScenario T ((k₁, e₁) :: (k₂, e₂) :: rest) k₁ kN vN tsN).has k
          = true)
    ∧ (lruScenario T ((k₁, e₁) :: (k₂, e₂) :: rest) k₁ kN vN tsN).has kN
        = true := by
  have hmap : ((k₁, e₁) :: (k₂, e₂) :: rest).map (fun x => x.1)
      = k₁ :: k₂ :: rest.map (fun x => x.1) := by simp
  obtain ⟨hK1, hA1, hM1⟩ :=
    setAll_fresh ((k₁, e₁) :: (k₂, e₂) :: rest)
      (⟨[], ((k₁, e₁) :: (k₂, e₂) :: rest).length, []⟩ : CacheManager T) []
      rfl rfl (by rw [List.nil_append, hmap]; exact hnd) (by simp)
  rw [List.nil_append, hmap] at hK1 hA1
  simp only [lruScenario]
  set c1 := setAll
    (⟨[], ((k₁, e₁) :: (k₂, e₂) :: rest).length, []⟩ : CacheManager T)
    ((k₁, e₁) :: (k₂, e₂) :: rest) with hc1
  have hget : (c1.get k₁).2 = c1.updateAccessOrder k₁ :=
    get_hit_state _ _ ((jget_isSome_iff _ _).mpr
      (by rw [hK1]; exact List.mem_cons_self _ _))
  rw [hget]
  have hK2 : (c1.updateAccessOrder k₁).cache.map Prod.fst
      = k₁ :: k₂ :: rest.map (fun x => x.1) := by
    rw [updateAccessOrder_cache]; exact hK1
  have hA2 : (c1.updateAccessOrder k₁).accessOrder
      = k₂ :: (rest.map (fun x => x.1) ++ [k₁]) := by
    rw [updateAccessOrder_accessOrder, hA1, List.erase_cons_head]
    rfl
  have hM2 : (c1.updateAccessOrder k₁).maxSize
      = ((k₁, e₁) :: (k₂, e₂) :: rest).length := by
    rw [updateAccessOrder_maxSize]; exact hM1
  have hfull : (c1.updateAccessOrder k₁).maxSize
      ≤ (c1.updateAccessOrder k₁).cache.length := by
    have hlen : (c1.updateAccessOrder k₁).cache.length
        = (k₁ :: k₂ :: rest.map (fun x => x.1)).length := by
      rw [← hK2, List.length_map]
    rw [hlen, hM2]
    simp
  have hnew : (c1.updateAccessOrder k₁).has kN = false := by
    rw [has_eq_false_iff, hK2]; exact hkN
  have hk2ne : k₂ ≠ "" :=
    hne k₂ (List.mem_cons_of_mem _ (List.mem_cons_self _ _))
  obtain ⟨hK3, hA3, hM3⟩ := set_evict_step (c1.updateAccessOrder k₁) kN k₂
    (rest.map (fun x => x.1) ++ [k₁]) vN tsN hA2 hk2ne hfull hnew
  have hne12 : k₁ ≠ k₂ := by
    intro h
    exact (List.nodup_cons.mp hnd).1 (h ▸ List.mem_cons_self _ _)
  have hbne : ¬(k₁ == k₂) := by simp [hne12]
  have hK3' : ((c1.updateAccessOrder k₁).set kN vN tsN).cache.map Prod.fst
      = (k₁ :: rest.map (fun x => x.1)) ++ [kN] := by
    rw [hK3, hK2, List.erase_cons_tail hbne, List.erase_cons_head]
  refine ⟨Ne.symm hne12, ?_, ?_, ?_⟩
  · rw [has_eq_false_iff, hK3']
    intro hmem
    rcases List.mem_append.mp hmem with hm | hm
    · rcases List.mem_cons.mp hm with h | h
      · exact hne12 h.symm
      · exact (List.nodup_cons.mp (List.nodup_cons.mp hnd).2).1 h
    · rw [List.mem_singleton] at hm
      exact hkN (hm ▸ List.mem_cons_of_mem _ (List.mem_cons_self _ _))
  · intro k hkmem hkne2
    rw [has_iff_mem, hK3']
    rcases List.mem_cons.mp hkmem with rfl | hm
    · exact List.mem_append_left _ (List.mem_cons_self _ _)
    · rcases List.mem_cons.mp hm with rfl | hm2
      · exact absurd rfl hkne2
      · exact List.mem_append_left _ (List.mem_cons_of_mem _ hm2)
  · rw [has_iff_mem, hK3']
    exact List.mem_append_right _ (List.mem_singleton_self _)

theorem cache_lru_evicts_second_witness :
    (lruScenario Nat [("a", 1, 0), ("b", 2, 1), ("c", 3, 2)] "a" "d" 4 5).has
        "b" = false
    ∧ (lruScenario Nat [("a", 1, 0), ("b", 2, 1), ("c", 3, 2)] "a" "d" 4
        5).has "a" = true
    ∧ (lruScenario Nat [("a", 1, 0), ("b", 2, 1), ("c", 3, 2)] "a" "d" 4
        5).has "c" = true
    ∧ (lruScenario Nat [("a", 1, 0), ("b", 2, 1), ("c", 3, 2)] "a" "d" 4
        5).has "d" = true := by
  have h := cache_lru_evicts_second Nat "a" "b" "d" (1, 0) (2, 1)
    [("c", 3, 2)] 4 5 (by decide) (by decide) (by decide)
  exact ⟨h.2.1, h.2.2.1 "a" (by decide) (by decide),
    h.2.2.1 "c" (by decide) (by decide), h.2.2.2⟩

/-! ## C10: the cache invariant -/

theorem goodState_updateAccessOrder {T : Type} (c : CacheManager T)
    (k : String) (hc : c.goodState) (hk : k ∈ c.cache.map Prod.fst) :
    (c.updateAccessOrder k).goodState := by
  obtain ⟨h1, h2, h3, h4, h5⟩ := hc
  refine ⟨h1, h2, nodup_erase_append _ _ h3, ?_, h5⟩
  intro m
  rw [updateAccessOrder_accessOrder, updateAccessOrder_cache,
    mem_erase_append _ _ _ h3, h4 m]
  constructor
  · rintro (rfl | hm)
    · exact hk
    · exact hm
  · exact fun hm => Or.inr hm

theorem get_state_maxSize {T : Type} (c : CacheManager T) (k : String) :
    ((c.get k).2).maxSize = c.maxSize := by
  cases hj : jget c.cache k with
  | none => rw [get_miss_state c k hj]
  | some e =>
      rw [get_hit_state c k (by rw [hj]; rfl)]
      rfl

theorem goodState_get {T : Type} (c : CacheManager T) (k : String)
    (hc : c.goodState) : ((c.get k).2).goodState := by
  cases hj : jget c.cache k with
  | none => rw [get_miss_state c k hj]; exact hc
  | some e =>
      rw [get_hit_state c k (by rw [hj]; rfl)]
      exact goodState_updateAccessOrder c k hc
        ((jget_isSome_iff _ _).mp (by rw [hj]; rfl))

theorem goodState_clear {T : Type} (c : CacheManager T) :
    (c.clear).goodState := by
  refine ⟨?_, ?_, ?_, ?_, ?_⟩ <;> simp [CacheManager.clear]

theorem goodState_set {T : Type} (c : CacheManager T) (k : String) (v : T)
    (ts : Nat) (hc : c.goodState) (hN : 1 ≤ c.maxSize) (hk : k ≠ "") :
    (c.set k v ts).goodState ∧ (c.set k v ts).maxSize = c.maxSize := by
  obtain ⟨h1, h2, h3, h4, h5⟩ := hc
  by_cases hhas : c.has k = true
  · obtain ⟨hK, hA, hM⟩ := set_replace_step c k v ts hhas
    have hkeys_mem : k ∈ c.cache.map Prod.fst := (has_iff_mem c k).mp hhas
    refine ⟨⟨?_, ?_, ?_, ?_, ?_⟩, hM⟩
    · have hL : (c.set k v ts).cache.length = c.cache.length := by
        have h := congrArg List.length hK
        simpa using h
      rw [hL, hM]
      exact h1
    · rw [hK]; exact h2
    · rw [hA]; exact nodup_erase_append _ _ h3
    · intro m
      rw [hA, hK, mem_erase_append _ _ _ h3, h4 m]
      constructor
      · rintro (rfl | hm)
        · exact hkeys_mem
        · exact hm
      · exact fun hm => Or.inr hm
    · rw [hK]; exact h5
  · have hhasf : c.has k = false := by
      cases h : c.has k
      · rfl
      · exact absurd h hhas
    have hknotmem : k ∉ c.cache.map Prod.fst := (has_eq_false_iff c k).mp hhasf
    have hknotAO : k ∉ c.accessOrder := fun hm => hknotmem ((h4 k).mp hm)
    by_cases hroom : c.cache.length < c.maxSize
    · obtain ⟨hK, hA, hM⟩ := set_fresh_step c k v ts hhasf hroom
      refine ⟨⟨?_, ?_, ?_, ?_, ?_⟩, hM⟩
      · have hL : (c.set k v ts).cache.length = c.cache.length + 1 := by
          have h := congrArg List.length hK
          simpa using h
        rw [hL, hM]
        omega
      · rw [hK]
        refine List.Nodup.append h2 (List.nodup_singleton k) ?_
        intro a ha hb
        rw [List.mem_singleton] at hb
        subst hb
        exact hknotmem ha
      · rw [hA, List.erase_of_not_mem hknotAO]
        refine List.Nodup.append h3 (List.nodup_singleton k) ?_
        intro a ha hb
        rw [List.mem_singleton] at hb
        subst hb
        exact hknotAO ha
      · intro m
        rw [hA, List.erase_of_not_mem hknotAO, hK]
        simp only [List.mem_append, List.mem_singleton]
        rw [h4 m]
      · rw [hK]
        intro m hm
        rcases List.mem_append.mp hm with hm | hm
        · exact h5 m hm
        · rw [List.mem_singleton] at hm
          subst hm
          exact hk
    · have hfull : c.maxSize ≤ c.cache.length := by omega
      have hlen1 : 1 ≤ c.cache.length := le_trans hN hfull
      have hkeys_ne : c.cache.map Prod.fst ≠ [] := by
        intro h0
        have hL := congrArg List.length h0
        simp only [List.length_map, List.length_nil] at hL
        omega
      obtain ⟨a, restAO, hAO⟩ : ∃ a restAO, c.accessOrder = a :: restAO := by
        cases hA : c.accessOrder with
        | nil =>
          exfalso
          cases hKs : c.cache.map Prod.fst with
          | nil => exact hkeys_ne hKs
          | cons x xs =>
            have hx : x ∈ c.accessOrder :=
              (h4 x).mpr (by rw [hKs]; exact List.mem_cons_self _ _)
            rw [hA] at hx
            cases hx
        | cons a r => exact ⟨a, r, rfl⟩
      have haK : a ∈ c.cache.map Prod.fst :=
        (h4 a).mp (by rw [hAO]; exact List.mem_cons_self _ _)
      have hane : a ≠ "" := h5 a haK
      obtain ⟨hK, hA, hM⟩ :=
        set_evict_step c k a restAO v ts hAO hane hfull hhasf
      have hknotrest : k ∉ restAO := fun hm =>
        hknotmem ((h4 k).mp (by rw [hAO]; exact List.mem_cons_of_mem _ hm))
      have h3' : (a :: restAO).Nodup := hAO ▸ h3
      have hanotr : a ∉ restAO := (List.nodup_cons.mp h3').1
      refine ⟨⟨?_, ?_, ?_, ?_, ?_⟩, hM⟩
      · have hL : (c.set k v ts).cache.length
            = ((c.cache.map Prod.fst).erase a).length + 1 := by
          have h := congrArg List.length hK
          simpa using h
        have hEr : ((c.cache.map Prod.fst).erase a).length
            = c.cache.length - 1 := by
          rw [List.length_erase_of_mem haK, List.length_map]
        rw [hL, hEr, hM]
        omega
      · rw [hK]
        refine List.Nodup.append (h2.erase a) (List.nodup_singleton k) ?_
        intro x hx hxk
        rw [List.mem_singleton] at hxk
        subst hxk
        exact hknotmem (List.mem_of_mem_erase hx)
      · rw [hA, List.erase_of_not_mem hknotrest]
        refine List.Nodup.append ((List.nodup_cons.mp h3').2)
          (List.nodup_singleton k) ?_
        intro x hx hxk
        rw [List.mem_singleton] at hxk
        subst hxk
        exact hknotrest hx
      · intro m
        rw [hA, List.erase_of_not_mem hknotrest, hK]
        simp only [List.mem_append, List.mem_singleton]
        constructor
        · rintro (hm | rfl)
          · left
            rw [List.Nodup.mem_erase_iff h2]
            have hmAO : m ∈ c.accessOrder := by
              rw [hAO]
              exact List.mem_cons_of_mem _ hm
            refine ⟨?_, (h4 m).mp hmAO⟩
            intro hma
            subst hma
            exact hanotr hm
          · right; rfl
        · rintro (hm | rfl)
          · left
            rw [List.Nodup.mem_erase_iff h2] at hm
            obtain ⟨hma, hmk⟩ := hm
            have hmo := (h4 m).mpr hmk
            rw [hAO] at hmo
            rcases List.mem_cons.mp hmo with rfl | hm2
            · exact absurd rfl hma
            · exact hm2
          · right; rfl
      · rw [hK]
        intro m hm
        rcases List.mem_append.mp hm with hm | hm
        · exact h5 m (List.mem_of_mem_erase hm)
        · rw [List.mem_singleton] at hm
          subst hm
          exact hk

theorem goodState_applyOp {T : Type} (c : CacheManager T) (op : CacheOp T)
    (hc : c.goodState) (hN : 1 ≤ c.maxSize) (hop : opKeyOk op = true) :
    (applyOp c op).goodState ∧ (applyOp c op).maxSize = c.maxSize := by
  cases op with
  | get k => exact ⟨goodState_get c k hc, get_state_maxSize c k⟩
  | set k v ts =>
      have hk : k ≠ "" := by
        simpa [opKeyOk] using hop
      exact goodState_set c k v ts hc hN hk
  | has k => exact ⟨hc, rfl⟩
  | clear => exact ⟨goodState_clear c, rfl⟩

theorem runOps_goodState {T : Type} (ops : List (CacheOp T)) :
    ∀ c : CacheManager T, c.goodState → 1 ≤ c.maxSize →
      (∀ op ∈ ops, opKeyOk op = true) →
      (runOps c ops).goodState ∧ (runOps c ops).maxSize = c.maxSize := by
  induction ops with
  | nil => intro c hc _ _; exact ⟨hc, rfl⟩
  | cons op ops ih =>
    intro c hc hN hops
    have h1 := goodState_applyOp c op hc hN (hops op (List.mem_cons_self _ _))
    have h2 := ih (applyOp c op) h1.1 (by rw [h1.2]; exact hN)
      (fun o ho => hops o (List.mem_cons_of_mem _ ho))
    refine ⟨h2.1, ?_⟩
    show (runOps (applyOp c op) ops).maxSize = c.maxSize
    rw [h2.2, h1.2]

/-- C10 counterexample: with capacity 1, setting the empty-string key and
then a fresh key leaves TWO entries in the cache (exceeding the capacity),
and the empty-string key is cached but no longer in the access-order list —
the `if (lruKey)` falsy guard of `evictLRU` skipped its deletion. -/
theorem cache_invariant_empty_key_cex :
    (runOps (⟨[], 1, []⟩ : CacheManager Nat)
        [CacheOp.set "" 1 0, CacheOp.set "x" 2 1]).cache.length = 2
    ∧ ¬((runOps (⟨[], 1, []⟩ : CacheManager Nat)
        [CacheOp.set "" 1 0, CacheOp.set "x" 2 1]).cache.length ≤ 1)
    ∧ "" ∈ (runOps (⟨[], 1, []⟩ : CacheManager Nat)
        [CacheOp.set "" 1 0, CacheOp.set "x" 2 1]).cache.map Prod.fst
    ∧ "" ∉ (runOps (⟨[], 1, []⟩ : CacheManager Nat)
        [CacheOp.set "" 1 0, CacheOp.set "x" 2 1]).accessOrder := by
  refine ⟨rfl, by decide, by decide, by decide⟩

/-- C10 (amended): for a cache of capacity `N ≥ 1`, after any sequence of
`get`/`set`/`has`/`clear` operations whose `set` keys are all NON-EMPTY
strings, the cache never holds more than `N` entries and the access-order
list contains exactly the set of cached keys (the full invariant,
including duplicate-freeness, also holds).  The non-emptiness restriction
is forced by the `if (lruKey)` guard of `evictLRU`. -/
theorem cache_invariant (T : Type) (N : Nat) (ops : List (CacheOp T))
    (hN : 1 ≤ N) (hkeys : ∀ op ∈ ops, opKeyOk op = true) :
    (runOps (⟨[], N, []⟩ : CacheManager T) ops).cache.length ≤ N
    ∧ (∀ k, k ∈ (runOps (⟨[], N, []⟩ : CacheManager T) ops).accessOrder
        ↔ k ∈ (runOps (⟨[], N, []⟩ : CacheManager T) ops).cache.map
          Prod.fst)
    ∧ (runOps (⟨[], N, []⟩ : CacheManager T) ops).goodState := by
  have h0 : (⟨[], N, []⟩ : CacheManager T).goodState := by
    refine ⟨?_, ?_, ?_, ?_, ?_⟩ <;> simp
  obtain ⟨hg, hm⟩ := runOps_goodState ops _ h0 hN hkeys
  have hmN : (runOps (⟨[], N, []⟩ : CacheManager T) ops).maxSize = N := hm
  have hlen := hg.1
  rw [hmN] at hlen
  exact ⟨hlen, hg.2.2.2.1, hg⟩

/-! ## C4: inventory parsing and exact lookup -/

theorem jfind_append {α : Type} (p : α → Bool) (l₁ l₂ : List α) :
    (l₁ ++ l₂).find? p =
      (match l₁.find? p with
       | some a => some a
       | none => l₂.find? p) := by
  induction l₁ with
  | nil => simp
  | cons a l ih =>
    by_cases h : p a
    · simp [List.find?_cons_of_pos _ h]
    · simp [List.find?_cons_of_neg _ h, ih]

theorem jget_jsetFold {β : Type} (ws : List (String × β)) :
    ∀ (m : List (String × β)) (k : String),
      jget (jsetFold m ws) k =
        (match ws.reverse.find? (fun w => w.1 == k) with
         | some w => some w.2
         | none => jget m k) := by
  induction ws with
  | nil => intro m k; simp [jsetFold]
  | cons w ws ih =>
    intro m k
    have h1 : jsetFold m (w :: ws) = jsetFold (jset m w.1 w.2) ws := rfl
    rw [h1, ih, List.reverse_cons, jfind_append]
    cases h : ws.reverse.find? (fun w => w.1 == k) with
    | some a => rfl
    | none =>
      by_cases hk : w.1 = k
      · subst hk
        simp [List.find?, jget_jset_self]
      · have hbk : (w.1 == k) = false := by simp [hk]
        simp [List.find?, hbk, jget_jset_of_ne _ _ _ _ hk]

theorem buildClassIndex_eq (types : List TypeSearchEntry) :
    buildClassIndex types = jsetFold [] (allWrites types) := by
  have key : ∀ (ts : List TypeSearchEntry)
      (m : List (String × ClassDocumentation)),
      ts.foldl (fun m e =>
        if e.p = "" then m
        else jset (jset m (e.p ++ "." ++ e.l) (classDocOfEntry e)) e.l
          (classDocOfEntry e)) m
      = jsetFold m (allWrites ts) := by
    intro ts
    induction ts with
    | nil => intro m; simp [allWrites, jsetFold]
    | cons e ts ih =>
      intro m
      rw [List.foldl_cons, ih]
      have h1 : allWrites (e :: ts) = writesOfEntry e ++ allWrites ts := by
        simp [allWrites]
      rw [h1]
      have h2 : jsetFold m (writesOfEntry e ++ allWrites ts)
          = jsetFold (jsetFold m (writesOfEntry e)) (allWrites ts) := by
        simp [jsetFold, List.foldl_append]
      rw [h2]
      congr 1
      by_cases hp : e.p = ""
      · simp [writesOfEntry, hp, jsetFold]
      · simp [writesOfEntry, hp, jsetFold]
  exact key types []

theorem mem_allWrites {w : String × ClassDocumentation}
    {types : List TypeSearchEntry} (hw : w ∈ allWrites types) :
    ∃ e ∈ types, e.p ≠ ""
      ∧ (w = (e.p ++ "." ++ e.l, classDocOfEntry e)
          ∨ w = (e.l, classDocOfEntry e)) := by
  simp only [allWrites, List.mem_flatten, List.mem_map] at hw
  obtain ⟨ws, ⟨e, he, rfl⟩, hw⟩ := hw
  by_cases hp : e.p = ""
  · simp [writesOfEntry, hp] at hw
  · refine ⟨e, he, hp, ?_⟩
    simpa [writesOfEntry, hp] using hw

theorem fqn_write_mem_allWrites (types : List TypeSearchEntry)
    (e : TypeSearchEntry) (he : e ∈ types) (hp : e.p ≠ "") :
    (e.p ++ "." ++ e.l, classDocOfEntry e) ∈ allWrites types := by
  simp only [allWrites, List.mem_flatten]
  exact ⟨writesOfEntry e, List.mem_map_of_mem _ he,
    by simp [writesOfEntry, hp]⟩

theorem simple_write_mem_allWrites (types : List TypeSearchEntry)
    (e : TypeSearchEntry) (he : e ∈ types) (hp : e.p ≠ "") :
    (e.l, classDocOfEntry e) ∈ allWrites types := by
  simp only [allWrites, List.mem_flatten]
  exact ⟨writesOfEntry e, List.mem_map_of_mem _ he,
    by simp [writesOfEntry, hp]⟩

/-- Last write to a key wins, and every write to that key agrees: the
lookup returns the common value. -/
theorem jget_jsetFold_of_writes {β : Type} (ws : List (String × β))
    (k : String) (v : β)
    (hex : (k, v) ∈ ws) (hval : ∀ w ∈ ws, w.1 = k → w.2 = v) :
    jget (jsetFold [] ws) k = some v := by
  rw [jget_jsetFold]
  cases h : ws.reverse.find? (fun w => w.1 == k) with
  | none =>
    rw [List.find?_eq_none] at h
    exact absurd (by simp : ((k, v).1 == k) = true)
      (h (k, v) (List.mem_reverse.mpr hex))
  | some w =>
    have hmem : w ∈ ws := List.mem_reverse.mp (List.mem_of_find?_eq_some h)
    have hkey := List.find?_some h
    simp only [beq_iff_eq] at hkey
    show some w.2 = some v
    rw [hval w hmem hkey]

/-- C4: for an inventory whose entries yield pairwise-distinct
fully-qualified names, none of which collides with a simple name, every
entity with a package is retrievable by `getClass` under its
fully-qualified name (returning exactly its skeleton document), and
`getClass` of its simple name returns some document whose simple name is
that name (existence, not uniqueness — last write wins among entities
sharing the simple name). -/
theorem buildClassIndex_lookup (types : List TypeSearchEntry)
    (e : TypeSearchEntry) (he : e ∈ types) (hp : e.p ≠ "")
    (hfqn : ∀ e2 ∈ types, e2.p ≠ "" →
      e2.p ++ "." ++ e2.l = e.p ++ "." ++ e.l → e2 = e)
    (hsimple : ∀ e2 ∈ types, e2.p ≠ "" → e2.p ++ "." ++ e2.l ≠ e.l)
    (hcross : ∀ e2 ∈ types, e2.p ≠ "" → e2.l ≠ e.p ++ "." ++ e.l) :
    SearchEngine.getClass ⟨buildClassIndex types, [], [], []⟩
        (e.p ++ "." ++ e.l) = some (classDocOfEntry e)
    ∧ (SearchEngine.getClass ⟨buildClassIndex types, [], [], []⟩ e.l).map
        ClassDocumentation.simpleName = some e.l := by
  have hgc : ∀ k, SearchEngine.getClass ⟨buildClassIndex types, [], [], []⟩ k
      = jget (buildClassIndex types) k := fun _ => rfl
  constructor
  · rw [hgc, buildClassIndex_eq]
    refine jget_jsetFold_of_writes _ _ _
      (fqn_write_mem_allWrites types e he hp) ?_
    intro w hw hk
    obtain ⟨e2, he2, hp2, hw2⟩ := mem_allWrites hw
    rcases hw2 with rfl | rfl
    · simp only at hk
      rw [hfqn e2 he2 hp2 hk]
    · simp only at hk
      exact absurd hk (hcross e2 he2 hp2)
  · rw [hgc, buildClassIndex_eq]
    have hrun : jget (jsetFold [] (allWrites types)) e.l
        = some (classDocOfEntry e) ∨
        ∃ d, jget (jsetFold [] (allWrites types)) e.l = some d
          ∧ d.simpleName = e.l := by
      right
      rw [jget_jsetFold]
      cases h : (allWrites types).reverse.find? (fun w => w.1 == e.l) with
      | none =>
        rw [List.find?_eq_none] at h
        exact absurd (by simp : (((e.l, classDocOfEntry e)).1 == e.l) = true)
          (h (e.l, classDocOfEntry e) (List.mem_reverse.mpr
            (simple_write_mem_allWrites types e he hp)))
      | some w =>
        have hmem : w ∈ allWrites types :=
          List.mem_reverse.mp (List.mem_of_find?_eq_some h)
        have hkey := List.find?_some h
        simp only [beq_iff_eq] at hkey
        obtain ⟨e2, he2, hp2, hw2⟩ := mem_allWrites hmem
        rcases hw2 with rfl | rfl
        · exact absurd hkey (hsimple e2 he2 hp2)
        · refine ⟨classDocOfEntry e2, rfl, ?_⟩
          simpa [classDocOfEntry] using hkey
    rcases hrun with hr | ⟨d, hd, hds⟩
    · rw [hr]
      simp [classDocOfEntry]
    · rw [hd]
      simp [hds]

theorem buildClassIndex_lookup_witness :
    SearchEngine.getClass
        ⟨buildClassIndex [⟨"com.x", "Widget", none⟩], [], [], []⟩
        "com.x.Widget"
      = some (classDocOfEntry ⟨"com.x", "Widget", none⟩) :=
  (buildClassIndex_lookup [⟨"com.x", "Widget", none⟩]
    ⟨"com.x", "Widget", none⟩ (List.mem_singleton_self _) (by decide)
    (by decide) (by decide) (by decide)).1

/-! ## C3: task-based package discovery -/

theorem mem_insertByScore (r x : PackageSearchResult)
    (l : List PackageSearchResult) :
    x ∈ insertByScore r l ↔ x = r ∨ x ∈ l := by
  induction l with
  | nil => simp [insertByScore]
  | cons a l ih =>
    by_cases h : r.relevanceScore ≤ a.relevanceScore
    · simp only [insertByScore, if_pos h, List.mem_cons, ih]
      tauto
    · simp only [insertByScore, if_neg h, List.mem_cons]

theorem sorted_insertByScore (r : PackageSearchResult)
    (l : List PackageSearchResult) (h : SortedByScore l) :
    SortedByScore (insertByScore r l) := by
  induction l with
  | nil =>
    simp only [insertByScore, SortedByScore]
    exact List.sorted_singleton _
  | cons a l ih =>
    rw [SortedByScore, List.sorted_cons] at h
    obtain ⟨ha, hl⟩ := h
    by_cases hr : r.relevanceScore ≤ a.relevanceScore
    · rw [SortedByScore]
      simp only [insertByScore, if_pos hr]
      rw [List.sorted_cons]
      refine ⟨?_, ih hl⟩
      intro b hb
      rcases (mem_insertByScore r b l).mp hb with rfl | hb
      · exact hr
      · exact ha b hb
    · rw [SortedByScore]
      simp only [insertByScore, if_neg hr]
      rw [List.sorted_cons]
      refine ⟨?_, ?_⟩
      · intro b hb
        rcases List.mem_cons.mp hb with rfl | hb
        · exact le_of_not_le hr
        · exact le_trans (ha b hb) (le_of_not_le hr)
      · rw [List.sorted_cons]
        exact ⟨ha, hl⟩

theorem sorted_sortByScoreDesc (l : List PackageSearchResult) :
    SortedByScore (sortByScoreDesc l) := by
  induction l with
  | nil =>
    simp only [sortByScoreDesc, List.foldr_nil, SortedByScore]
    exact List.sorted_nil
  | cons a l ih => exact sorted_insertByScore a _ ih

theorem mem_sortByScoreDesc (x : PackageSearchResult)
    (l : List PackageSearchResult) : x ∈ sortByScoreDesc l ↔ x ∈ l := by
  induction l with
  | nil => simp [sortByScoreDesc]
  | cons a l ih =>
    rw [show sortByScoreDesc (a :: l) = insertByScore a (sortByScoreDesc l)
      from rfl]
    rw [mem_insertByScore, ih, List.mem_cons]

/-- C3 counterexample: with two matching categories that both list
`com.x.A` (query `"valid"` matches both `"validation"` and `"valid"`), the
candidate list holds the class twice; the code divides by that length 2,
producing score 1/2, whereas the claim's `|keyClasses| / max(|union|, 1)`
is `1 / max(1, 1) = 1`. -/
theorem findPackagesByTask_union_cex :
    ((findPackagesByTask engOverlap "valid").map
        (fun r => r.relevanceScore)) = [(1 : ℚ) / 2]
    ∧ ((findPackagesByTask engOverlap "valid").map
        (fun r => r.keyClasses)) = [["com.x.A"]]
    ∧ (keepFirsts (relevantClassesFor engOverlap "valid")).length = 1
    ∧ ((1 : ℚ) / 2) ≠ ((1 : Nat) : ℚ) / ((max 1 1 : Nat) : ℚ) := by
  have h1 : findPackagesByTask engOverlap "valid"
      = [{ name := "com.x", description := none, keyClasses := ["com.x.A"]
         , relevanceScore :=
             ((1 : Nat) : ℚ) / ((max 2 1 : Nat) : ℚ) }] := rfl
  refine ⟨?_, rfl, rfl, by norm_num⟩
  rw [h1]
  norm_num

/-- C3 (amended): for every engine whose package map stores each package
under its own name, and every task query, each result of
`findPackagesByTask` has `keyClasses` equal to the intersection of that
package's member list with the candidate-class list (encounter order,
capped at 5) and `relevanceScore` equal to `|keyClasses|` divided by
`max(totalCandidates, 1)` where `totalCandidates` counts the concatenated
entity lists of all matching categories WITH multiplicity (not the union's
cardinality); the result list is sorted descending by score; and the
single-category scenario returns `com.x` with key class `com.x.Checker`
and score 1. -/
theorem findPackagesByTask_spec (eng : SearchEngine) (task : String)
    (hpk : ∀ pe ∈ eng.packageMap, pe.2.name = pe.1) :
    (∀ r ∈ findPackagesByTask eng task,
        (jget eng.packageMap r.name).map (fun pkg =>
            (pkg.classes.filter (fun c =>
              (relevantClassesFor eng task).contains c)).take 5)
          = some r.keyClasses
        ∧ r.relevanceScore =
            (r.keyClasses.length : ℚ)
              / ((max (relevantClassesFor eng task).length 1 : Nat) : ℚ))
    ∧ SortedByScore (findPackagesByTask eng task)
    ∧ findPackagesByTask engScenario "validation"
        = [{ name := "com.x", description := none
           , keyClasses := ["com.x.Checker"], relevanceScore := 1 }] := by
  refine ⟨?_, sorted_sortByScoreDesc _, ?_⟩
  · intro r hr
    rw [findPackagesByTask, mem_sortByScoreDesc, List.mem_filterMap] at hr
    obtain ⟨pn, hpn, hres⟩ := hr
    rw [packageResultFor] at hres
    cases hj : jget eng.packageMap pn with
    | none => rw [hj] at hres; cases hres
    | some pkg =>
      rw [hj] at hres
      simp only [Option.map_some'] at hres
      rw [Option.some.injEq] at hres
      cases hres
      refine ⟨?_, rfl⟩
      have hname : pkg.name = pn := hpk (pn, pkg) (jget_mem _ _ _ hj)
      show Option.map
          (fun pkg => (pkg.classes.filter (fun c =>
            (relevantClassesFor eng task).contains c)).take 5)
          (jget eng.packageMap pkg.name)
        = some ((pkg.classes.filter (fun c =>
            (relevantClassesFor eng task).contains c)).take 5)
      rw [hname, hj]
      rfl
  · have h1 : findPackagesByTask engScenario "validation"
        = [{ name := "com.x", description := none
           , keyClasses := ["com.x.Checker"]
           , relevanceScore :=
               ((1 : Nat) : ℚ) / ((max 1 1 : Nat) : ℚ) }] := rfl
    rw [h1]
    norm_num

theorem findPackagesByTask_spec_witness :
    findPackagesByTask engScenario "validation"
      = [{ name := "com.x", description := none
         , keyClasses := ["com.x.Checker"], relevanceScore := 1 }] :=
  (findPackagesByTask_spec engScenario "validation" (by decide)).2.2

theorem cache_invariant_witness :
    (runOps (⟨[], 2, []⟩ : CacheManager Nat)
      [CacheOp.set "a" 1 0, CacheOp.get "a",
        CacheOp.set "b" 2 1]).cache.length ≤ 2 :=
  (cache_invariant Nat 2
    [CacheOp.set "a" 1 0, CacheOp.get "a", CacheOp.set "b" 2 1]
    (by decide) (by decide)).1

end EbxDocs
